import Mathlib

/-!
Verification development for the keploy regression-testing service
(`pkg/service/run/run.go`, `pkg/service/regression` and `pkg/models/tc.go`).

The Go code is shallowly embedded: Go maps become association lists (or
functions into `Option` where key *presence* matters, as for the cache
maps that Go's `delete` acts on), Go slices become `List`, fallible store
operations become `Except`/`Option`, and in-place mutation becomes
explicit state passing.  Machine integers (epoch timestamps, counters)
become `Int`/`Nat`; no overflow-relevant arithmetic occurs in the
modelled code paths.
-/

namespace KeployModel

/-! ### Association-list model of Go maps

A Go `map[string]V` is modelled as a `List (String × V)` kept free of
duplicate keys.  `setA` models map assignment (replace the entry if the
key is present, otherwise add it), `lookupA` models indexing. -/

def lookupA {β : Type} : List (String × β) → String → Option β
  | [], _ => none
  | p :: rest, k => if p.1 = k then some p.2 else lookupA rest k

def setA {β : Type} : List (String × β) → String → β → List (String × β)
  | [], k, v => [(k, v)]
  | p :: rest, k, v => if p.1 = k then (k, v) :: rest else p :: setA rest k v

def nodupKeys {β : Type} (m : List (String × β)) : Prop :=
  (m.map Prod.fst).Nodup

/-! ### JSON values and `flatten`

`encoding/json.Unmarshal` into `interface{}` produces `nil`, `bool`,
`float64`, `string`, `[]interface{}` and `map[string]interface{}`; the
inductive below mirrors that result.  A number is represented by the
canonical string Go's `strconv.FormatFloat(f, 'E', -1, 64)` produces for
it, since `flatten` only ever consumes the number through that exact
formatting call and the embedding does not re-model IEEE 754 binary64
formatting itself. -/

inductive JsonVal where
  | null : JsonVal
  | bool (b : Bool) : JsonVal
  | num (canon : String) : JsonVal
  | str (s : String) : JsonVal
  | arr (elems : List JsonVal) : JsonVal
  | obj (fields : List (String × JsonVal)) : JsonVal

/-- The flat form `map[string][]string` used throughout the service. -/
abbrev FlatMap := List (String × List String)

/-- Key prefixing done in `flatten`'s object case: `fk := k` and
`fk = fk + "." + nk` when the child path `nk` is nonempty. -/
def joinKey (k nk : String) : String := if nk = "" then k else k ++ "." ++ nk

/-- Object case of `flatten`: merge the child's entries under prefix `k`,
with plain map assignment. -/
def mergeObjEntries (o : FlatMap) (k : String) (nm : FlatMap) : FlatMap :=
  nm.foldl (fun o2 p => setA o2 (joinKey k p.1) p.2) o

/-- Slice case of `flatten`: if the leaf path already exists, the value
lists are concatenated in iteration order, otherwise the entry is added. -/
def mergeArrEntries (o : FlatMap) (nm : FlatMap) : FlatMap :=
  nm.foldl
    (fun o2 p =>
      match lookupA o2 p.1 with
      | some ov => setA o2 p.1 (ov ++ p.2)
      | none => setA o2 p.1 p.2)
    o

/-- `flatten` from run.go: walks a JSON value and yields dot-delimited
paths mapped to lists of scalar strings.  `nil` yields `\x7b"": [""]\x7d`;
booleans print via `strconv.FormatBool`; numbers via their canonical
`FormatFloat (E, -1, 64)` string; strings verbatim. -/
def flatten : JsonVal → FlatMap
  | .null => [("", [""])]
  | .bool b => [("", [if b then "true" else "false"])]
  | .num canon => [("", [canon])]
  | .str s => [("", [s])]
  | .obj fields =>
      fields.attach.foldl (fun o p => mergeObjEntries o p.1.1 (flatten p.1.2)) []
  | .arr elems =>
      elems.attach.foldl (fun o p => mergeArrEntries o (flatten p.1)) []
termination_by j => sizeOf j
decreasing_by
  · obtain ⟨⟨a, b⟩, hp⟩ := p
    have h1 : sizeOf (a, b) < sizeOf fields := List.sizeOf_lt_of_mem hp
    simp only [Prod.mk.sizeOf_spec] at h1
    simp only [JsonVal.obj.sizeOf_spec]
    omega
  · obtain ⟨a, hp⟩ := p
    have h1 : sizeOf a < sizeOf elems := List.sizeOf_lt_of_mem hp
    simp only [JsonVal.arr.sizeOf_spec]
    omega

/-! ### `isAnchor`

The Go source sums the histogram's counts and compares
`float64(totalCount)*0.40 > float64(len(m))`.  For the integer counts
involved this floating comparison coincides with the exact rational
comparison `2 * total > 5 * len`, which the embedding uses. -/

/-- A value histogram `map[string]int`: value → occurrence count. -/
abbrev Hist := List (String × Nat)

def histTotal (m : Hist) : Nat := m.foldl (fun acc p => acc + p.2) 0

/-- `isAnchor` from run.go: a field is an anchor when its sample is small
(total < 20) or its unique-value count is below 40% of the total. -/
def isAnchor (m : Hist) : Bool :=
  if histTotal m < 20 then true
  else if 5 * m.length < 2 * histTotal m then true
  else false

/-! ### Data model (`pkg/models/tc.go`)

A Go body string is represented together with what `encoding/json` does
with it: `parsed = some j` exactly when `json.Valid(text)` holds and
`json.Unmarshal` yields `j`; `parsed = none` models an invalid-JSON
body.  Dependency snapshots (`Deps`) are opaque payload never touched by
the modelled operations and are omitted. -/

structure BodyStr where
  text : String
  parsed : Option JsonVal

def rawBody (s : String) : BodyStr := { text := s, parsed := none }

structure HttpReq where
  method : String
  url : String
  urlParams : List (String × String)
  header : List (String × List String)
  body : BodyStr

structure HttpResp where
  statusCode : Int
  header : List (String × List String)
  body : BodyStr

structure TestCase where
  id : String
  cid : String
  appID : String
  uri : String
  httpReq : HttpReq
  httpResp : HttpResp
  allKeys : FlatMap
  anchors : FlatMap
  noise : List String

def emptyReq : HttpReq :=
  { method := "GET", url := "/", urlParams := [], header := [], body := rawBody "" }

def emptyResp : HttpResp :=
  { statusCode := 200, header := [], body := rawBody "" }

/-! ### Test-case store

The Mongo-backed `TestCaseDB` implementation is not among the sources;
only its interface (`pkg/models/tc.go`) and the spec describe it. -/

/-- Modelled from the spec: `Get(cid, id)` fetches the test case with
that id for that customer from the store. -/
def storeGet (store : List TestCase) (cid id : String) : Option TestCase :=
  store.find? (fun u => u.cid == cid && u.id == id)

/-- Modelled from the spec: `Upsert(tc)` replaces the stored case with
`tc`'s id, inserting it if absent. -/
def storeUpsert (store : List TestCase) (t : TestCase) : List TestCase :=
  if store.any (fun u => u.id == t.id) then
    store.map (fun u => if u.id == t.id then t else u)
  else store ++ [t]

/-- Modelled from the spec: `Delete(id)` removes the case with that id. -/
def storeDelete (store : List TestCase) (id : String) : List TestCase :=
  store.filter (fun u => !(u.id == id))

/-- Modelled from the spec: `GetKeys(cid, app, uri)` returns all cases
for the endpoint triple. -/
def getKeys (store : List TestCase) (cid app uri : String) : List TestCase :=
  store.filter (fun v => v.cid == cid && v.appID == app && v.uri == uri)

/-- Structural equality of two flat maps viewed as Go maps
(`reflect.DeepEqual` on `map[string][]string`): same key set, equal
value lists. -/
def flatMapEquiv (a b : FlatMap) : Bool :=
  a.all (fun p => lookupA b p.1 == some p.2) && b.all (fun p => lookupA a p.1 == some p.2)

/-- Modelled from the spec: `DeleteByAnchor(cid, app, uri, filterKeys)`
removes any case for the endpoint whose anchors equal `filterKeys`. -/
def deleteByAnchor (store : List TestCase) (cid app uri : String) (fk : FlatMap) :
    List TestCase :=
  store.filter (fun v =>
    !(v.cid == cid && v.appID == app && v.uri == uri && flatMapEquiv v.anchors fk))

/-! ### `addBody`, response flattening and `DeNoise` -/

/-- Key under which a flattened body path is stored: `"body"` for the
scalar-root path `""`, otherwise `"body." ++ k`. -/
def bodyKey (k : String) : String := if k = "" then "body" else "body." ++ k

/-- `addBody` from run.go: if the body is valid JSON, merge its
flattened form under the `body` prefix; otherwise store the raw text at
key `"body"`. -/
def addBody (body : BodyStr) (m : FlatMap) : FlatMap :=
  match body.parsed with
  | some j => (flatten j).foldl (fun m2 p => setA m2 (bodyKey p.1) p.2) m
  | none => setA m "body" [body.text]

/-- The flat map `DeNoise` builds from a response: each header `k` under
`header.k` with its values joined without separator, then the body via
`addBody`. -/
def respFlat (header : List (String × List String)) (body : BodyStr) : FlatMap :=
  addBody body (header.foldl (fun m p => setA m ("header." ++ p.1) [String.join p.2]) [])

/-- The noise list `DeNoise` computes: every path of `a` that is absent
from `b` or maps to a different value list in `b`. -/
def noiseOf (a b : FlatMap) : List String :=
  (a.filter (fun p =>
    match lookupA b p.1 with
    | none => true
    | some v2 => p.2 != v2)).map Prod.fst

/-- `Regression.DeNoise` from run.go: load the case, flatten its stored
expected response and the observed one, overwrite `tc.Noise` with the
differing paths and upsert. -/
def DeNoise (store : List TestCase) (cid id : String) (body : BodyStr)
    (h : List (String × List String)) : Except String (List TestCase) :=
  match storeGet store cid id with
  | none => .error "get failed"
  | some tc =>
      let a := respFlat tc.httpResp.header tc.httpResp.body
      let b := respFlat h body
      .ok (storeUpsert store { tc with noise := noiseOf a b })

/-! ### AnchorCache state

Go's `delete` and nil-map reads make key *presence* observable for the
three cache maps, so they are modelled as functions into `Option`. -/

abbrev FieldCounts := List (String × Hist)

structure CacheState where
  anchors : String → Option (List FlatMap)
  noisyFields : String → Option (List String)
  fieldCounts : String → Option FieldCounts

def cacheEmpty : CacheState :=
  { anchors := fun _ => none, noisyFields := fun _ => none, fieldCounts := fun _ => none }

def indexOf (t : TestCase) : String := t.cid ++ "-" ++ t.appID ++ "-" ++ t.uri

def histOf (fc : FieldCounts) (k : String) : Hist := (lookupA fc k).getD []

def bumpHist (h : Hist) (v : String) : Hist := setA h v ((lookupA h v).getD 0 + 1)

def bumpMany (h : Hist) (vs : List String) : Hist := vs.foldl bumpHist h

def insertNoisy (l : List String) (k : String) : List String :=
  if l.contains k then l else l ++ [k]

def noisyContains (st : CacheState) (index k : String) : Bool :=
  ((st.noisyFields index).getD []).contains k

def getHist (st : CacheState) (index k : String) : Hist :=
  histOf ((st.fieldCounts index).getD []) k

def setHistIn (st : CacheState) (index k : String) (h : Hist) : CacheState :=
  { st with
    fieldCounts := fun i =>
      if i = index then some (setA ((st.fieldCounts index).getD []) k h)
      else st.fieldCounts i }

def markNoisy (st : CacheState) (index k : String) : CacheState :=
  { st with
    noisyFields := fun i =>
      if i = index then some (insertNoisy ((st.noisyFields index).getD []) k)
      else st.noisyFields i }

/-- One test case of the `GetKeys` result replayed through the cache
rebuild loop of `fillCache`: the case's anchors combination is appended,
every `allKeys` path's histogram absorbs the value list, and a path
failing `isAnchor` is marked noisy. -/
def fillFold (acc : List FlatMap × FieldCounts × List String) (v : TestCase) :
    List FlatMap × FieldCounts × List String :=
  let q := v.allKeys.foldl
    (fun (q : FieldCounts × List String) p =>
      let h := bumpMany (histOf q.1 p.1) p.2
      (setA q.1 p.1 h, if isAnchor h = false then insertNoisy q.2 p.1 else q.2))
    (acc.2.1, acc.2.2)
  (acc.1 ++ [v.anchors], q.1, q.2)

/-- `Regression.fillCache` from run.go: when `noisyFields[index]` or
`fieldCounts[index]` is absent, rebuild all three cache maps for the
index from the store via `GetKeys`; otherwise return at once.  The
mutex and its double-checked re-test collapse in this sequential
model. -/
def fillCache (st : CacheState) (store : List TestCase) (t : TestCase) :
    CacheState × String :=
  let index := indexOf t
  if (st.noisyFields index).isSome && (st.fieldCounts index).isSome then (st, index)
  else
    let tcs := getKeys store t.cid t.appID t.uri
    let b := tcs.foldl fillFold ([], [], [])
    ({ anchors := fun i => if i = index then some b.1 else st.anchors i,
       noisyFields := fun i => if i = index then some b.2.2 else st.noisyFields i,
       fieldCounts := fun i => if i = index then some b.2.1 else st.fieldCounts i },
     index)

/-! ### `isDup` and its helpers -/

/-- `reqKeys` as built at the top of `isDup`: headers under
`header.<k>` (values joined without separator), URL params under
`url_params.<k>`, and the flattened body under the `body` prefix — the
body is added only when it is valid JSON (there is no raw-text fallback
in `isDup`). -/
def reqKeysOf (t : TestCase) : FlatMap :=
  let m := t.httpReq.header.foldl
    (fun m p => setA m ("header." ++ p.1) [String.join p.2]) []
  let m := t.httpReq.urlParams.foldl
    (fun m p => setA m ("url_params." ++ p.1) [p.2]) m
  match t.httpReq.body.parsed with
  | some j => (flatten j).foldl (fun m2 p => setA m2 (bodyKey p.1) p.2) m
  | none => m

/-- The anchor-selection loop of `isDup`: skip paths already noisy,
bump the histogram with the path's values, demote the path to noisy when
the updated histogram fails `isAnchor`, and otherwise keep the path in
the candidate anchor map `filterKeys`. -/
def dupLoop (index : String) : CacheState → List (String × List String) →
    CacheState × FlatMap
  | st, [] => (st, [])
  | st, (k, v) :: rest =>
      if noisyContains st index k then dupLoop index st rest
      else
        let h := bumpMany (getHist st index k) v
        let st1 := setHistIn st index k h
        if isAnchor h = false then dupLoop index (markNoisy st1 index k) rest
        else
          let r := dupLoop index st1 rest
          (r.1, (k, v) :: r.2)

/-- Ascending sort of a value list, as `sort.Strings` does in place
inside `Regression.exists`. -/
def sortStrings (l : List String) : List String := List.insertionSort (· ≤ ·) l

/-- All value lists of a combination sorted — the effect of
`Regression.exists`'s in-place `sort.Strings` on the map it receives. -/
def sortFlat (m : FlatMap) : FlatMap := m.map (fun p => (p.1, sortStrings p.2))

/-- The aliasing effect of that in-place sort on `reqKeys`: `filterKeys`
holds the very slices of `reqKeys`, so sorting a `filterKeys` value list
sorts the corresponding `reqKeys` entry too. -/
def aliasSort (reqKeys fk : FlatMap) : FlatMap :=
  reqKeys.map (fun p => if fk.any (fun q => q.1 == p.1) then (p.1, sortStrings p.2) else p)

/-- `Regression.exists` from run.go, after the in-place sort: compare
the sorted candidate against every stored combination with
`reflect.DeepEqual`. -/
def existsCombo (combos : List FlatMap) (sfk : FlatMap) : Bool :=
  combos.any (fun c => flatMapEquiv c sfk)

/-- `Regression.isDup` from run.go.  Returns the duplicate verdict, the
test case as mutated through its pointer (`AllKeys`/`Anchors` set), the
cache state, and the store (affected by the unconditional
`DeleteByAnchor`, since `isAnchorChange` is always `true`). -/
def isDup (st : CacheState) (store : List TestCase) (t : TestCase) :
    Bool × TestCase × CacheState × List TestCase :=
  let r := fillCache st store t
  let index := r.2
  let reqKeys := reqKeysOf t
  let d := dupLoop index r.1 reqKeys
  let fk := d.2
  if fk = [] then (true, t, d.1, store)
  else
    let store1 := deleteByAnchor store t.cid t.appID t.uri fk
    let sfk := sortFlat fk
    let prev := (d.1.anchors index).getD []
    let dup := existsCombo prev sfk
    let t1 := { t with allKeys := aliasSort reqKeys fk, anchors := sfk }
    let st1 := { d.1 with
      anchors := fun i => if i = index then some (prev ++ [sfk]) else d.1.anchors i }
    (dup, t1, st1, store1)

/-! ### `putTC`, `Put`, `DeleteTC` -/

/-- Configuration of a `Regression` instance plus the failure behaviour
of the store's `Upsert` (`upsertOk t = false` models a store error for
that write). -/
structure RegCfg where
  enableDeDup : Bool
  upsertOk : TestCase → Bool

/-- `Regression.putTC` from run.go: set `CID`, consult `isDup` when
deduplication is on (empty id, no error, no write for a duplicate), and
otherwise upsert, mapping a store failure to `"internal failure"`. -/
def putTC (cfg : RegCfg) (st : CacheState) (store : List TestCase) (cid : String)
    (t0 : TestCase) : String × Option String × CacheState × List TestCase :=
  let t := { t0 with cid := cid }
  if cfg.enableDeDup then
    match isDup st store t with
    | (true, _, st1, store1) => ("", none, st1, store1)
    | (false, t1, st1, store1) =>
        if cfg.upsertOk t1 then (t1.id, none, st1, storeUpsert store1 t1)
        else ("", some "internal failure", st1, store1)
  else
    if cfg.upsertOk t then (t.id, none, st, storeUpsert store t)
    else ("", some "internal failure", st, store)

/-- The loop body of `Regression.Put`: process cases in order, append
each returned id, and stop at the first failure returning the ids
accumulated so far. -/
def putLoop (cfg : RegCfg) (cid : String) :
    List TestCase → List String → CacheState → List TestCase →
    List String × Option String × CacheState × List TestCase
  | [], ids, st, store => (ids, none, st, store)
  | t :: rest, ids, st, store =>
      match putTC cfg st store cid t with
      | (_, some _, st1, store1) => (ids, some "failed saving testcase", st1, store1)
      | (id, none, st1, store1) => putLoop cfg cid rest (ids ++ [id]) st1 store1

/-- `Regression.Put` from run.go: reject an empty batch, then run the
loop. -/
def Put (cfg : RegCfg) (st : CacheState) (store : List TestCase) (cid : String)
    (tcs : List TestCase) :
    List String × Option String × CacheState × List TestCase :=
  if tcs.isEmpty then ([], some "no testcase to update", st, store)
  else putLoop cfg cid tcs [] st store

/-- `Regression.DeleteTC` from run.go: look the case up, evict
`anchors[index]` for its endpoint index (only that map), delete the case
from the store. -/
def DeleteTC (st : CacheState) (store : List TestCase) (cid id : String) :
    Except String (CacheState × List TestCase) :=
  match storeGet store cid id with
  | none => .error "internal failure"
  | some t =>
      let index := indexOf t
      let st1 := { st with
        anchors := fun i => if i = index then none else st.anchors i }
      .ok (st1, storeDelete store id)

/-! ### RunManager (`pkg/service/run/run.go`, package `run`)

Wall-clock time is passed in explicitly: `nowNs` is the nanosecond value
of `time.Now().UTC()`; `Started`/`Created` are epoch seconds as in the
Go structs, so `time.Now().Sub(time.Unix(ts, 0))` becomes
`nowNs - ts * 1000000000` and the 5-minute bound is `300000000000` ns. -/

inductive TestRunStatus where
  | running : TestRunStatus
  | failed : TestRunStatus
  | passed : TestRunStatus
deriving DecidableEq

structure TestRun where
  id : String
  cid : String
  status : TestRunStatus
  created : Int

/-- A child test of a run, as read back by `ReadTests`; only the
`Started` second matters to `updateStatus`. -/
structure RTest where
  started : Int
deriving DecidableEq

/-- `failOldTestRuns` from run.go: nothing happens while the reference
timestamp is younger than 5 minutes; otherwise the run is marked Failed
and upserted (second component: the runs written to the store). -/
def failOldTestRuns (nowNs : Int) (ts : Int) (tr : TestRun) : TestRun × List TestRun :=
  if nowNs - ts * 1000000000 < 300000000000 then (tr, [])
  else ({ tr with status := .failed }, [{ tr with status := .failed }])

/-- The maximum-`Started` scan of `updateStatus`: start from the first
test's value and take every later test that is strictly newer. -/
def newestStarted (ts0 : Int) (tests : List RTest) : Int :=
  tests.foldl (fun acc t => if acc < t.started then t.started else acc) ts0

/-- One run's treatment inside `updateStatus`: non-Running runs are
untouched; a Running run with no child tests is checked against its own
`Created`, otherwise against the newest child's `Started`. -/
def updateStatusRun (nowNs : Int) (readTests : String → List RTest) (tr : TestRun) :
    TestRun × List TestRun :=
  if tr.status ≠ .running then (tr, [])
  else
    match readTests tr.id with
    | [] => failOldTestRuns nowNs tr.created tr
    | t0 :: rest => failOldTestRuns nowNs (newestStarted t0.started (t0 :: rest)) tr

/-- `updateStatus` over a batch (the telemetry counter bookkeeping is
irrelevant to the runs' states and omitted): first component the batch
after the pass, second the upserted runs. -/
def updateStatus (nowNs : Int) (readTests : String → List RTest) (trs : List TestRun) :
    List TestRun × List TestRun :=
  (trs.map (fun tr => (updateStatusRun nowNs readTests tr).1),
   trs.foldl (fun acc tr => acc ++ (updateStatusRun nowNs readTests tr).2) [])

/-- The staleness condition of `failOldTestRuns`: the reference
timestamp `ts` (epoch seconds) is at least 5 minutes behind `nowNs`. -/
def stale (nowNs ts : Int) : Prop := 300000000000 ≤ nowNs - ts * 1000000000

/-- The reference timestamp `updateStatus` actually checks for a
Running run: the run's own `Created` when it has no child tests, the
newest child's `Started` otherwise. -/
def stallRef (readTests : String → List RTest) (tr : TestRun) : Int :=
  match readTests tr.id with
  | [] => tr.created
  | t0 :: rest => newestStarted t0.started (t0 :: rest)

/-- C2 as stated, at one batch entry: a Running run whose child-test set
is empty, or whose newest child started at least 5 minutes ago, is
failed and upserted; otherwise it is left unchanged. -/
def c2ClaimAt (nowNs : Int) (readTests : String → List RTest) (tr : TestRun) : Prop :=
  tr.status = .running →
    ((readTests tr.id = [] ∨
        (∃ t0 rest, readTests tr.id = t0 :: rest ∧
          stale nowNs (newestStarted t0.started (t0 :: rest)))) →
      updateStatusRun nowNs readTests tr =
        ({ tr with status := .failed }, [{ tr with status := .failed }])) ∧
    (¬ (readTests tr.id = [] ∨
        (∃ t0 rest, readTests tr.id = t0 :: rest ∧
          stale nowNs (newestStarted t0.started (t0 :: rest)))) →
      updateStatusRun nowNs readTests tr = (tr, []))

/-! ### `Regression.Test` / `Regression.test`

`pkg.Match` and `pkg.CompareHeaders` live in a package whose
implementation is not among the sources (only its tests are), so they
are abstracted as an oracle the embedding is parametric in: `Match` may
return a parse error, `CompareHeaders` returns the verdict together with
the per-header diagnostics it writes through its out-parameter. -/

structure HeaderPair where
  key : String
  value : List String

structure HeaderResult where
  normal : Bool
  expected : HeaderPair
  actual : HeaderPair

structure MatchOracle where
  matchBody : String → String → List String → Except String Bool
  compareHeaders : List (String × List String) → List (String × List String) →
    List String → Bool × List HeaderResult

inductive BodyType where
  | plain : BodyType
  | json : BodyType
deriving DecidableEq

structure IntResult where
  normal : Bool
  expected : Int
  actual : Int

structure BodyResult where
  normal : Bool
  type : BodyType
  expected : String
  actual : String

structure RunResult where
  statusCode : IntResult
  bodyResult : BodyResult
  headersResult : List HeaderResult

inductive RunTestStatus where
  | passed : RunTestStatus
  | failed : RunTestStatus
deriving DecidableEq

/-- A persisted `run.Test` record (fields not involved in the claims'
behaviour — captured request, dependencies — carried via the loaded
case's data). -/
structure RunTest where
  id : String
  started : Int
  runID : String
  testCaseID : String
  uri : String
  req : HttpReq
  resp : HttpResp
  result : RunResult
  noise : List String
  completed : Int
  status : RunTestStatus

/-- The run-side store touched by `saveResult`: persisted test records
plus the per-run success/failure counters `Increment` maintains. -/
structure RunStore where
  rtests : List RunTest
  success : String → Nat
  failure : String → Nat

def runStoreEmpty : RunStore :=
  { rtests := [], success := fun _ => 0, failure := fun _ => 0 }

def putRunTest (l : List RunTest) (t : RunTest) : List RunTest :=
  if l.any (fun u => u.id == t.id) then l.map (fun u => if u.id == t.id then t else u)
  else l ++ [t]

/-- `Regression.saveResult` from run.go: `PutTest` then `Increment` of
the failure counter for a Failed record, of the success counter
otherwise. -/
def saveResult (rs : RunStore) (t : RunTest) : RunStore :=
  let rs1 := { rs with rtests := putRunTest rs.rtests t }
  if t.status = .failed then
    { rs1 with failure := fun rid => if rid = t.runID then rs1.failure rid + 1 else rs1.failure rid }
  else
    { rs1 with success := fun rid => if rid = t.runID then rs1.success rid + 1 else rs1.success rid }

/-- The `body.`-prefixed entries of `tc.Noise`, with the prefix
stripped and the remaining segments rejoined, as `Regression.test`
builds `bodyNoise`. -/
def bodyNoiseOf (noise : List String) : List String :=
  noise.filterMap (fun n =>
    let a := n.splitOn "."
    if a.length > 1 && a.head? == some "body" then some (String.intercalate "." a.tail)
    else none)

/-- The header entries of `tc.Noise` (an entry not caught by the body
branch whose first segment is `header`), keyed by the last dotted
segment, as `Regression.test` builds `headerNoise`. -/
def headerNoiseOf (noise : List String) : List String :=
  noise.filterMap (fun n =>
    let a := n.splitOn "."
    if a.length > 1 && a.head? == some "body" then none
    else if a.head? == some "header" then some (a.getLastD "") else none)

/-- Tail of `Regression.test` shared by both body branches: record the
body verdict, compare headers and status codes, build the `Result`. -/
def regTestFinish (oracle : MatchOracle) (tc : TestCase) (resp : HttpResp)
    (res0 : RunResult) (hNoise : List String) (pass0 : Bool) :
    Bool × Option RunResult × Option TestCase × Option String :=
  let res1 := { res0 with bodyResult := { res0.bodyResult with normal := pass0 } }
  let hr := oracle.compareHeaders tc.httpResp.header resp.header hNoise
  let pass1 := if hr.1 then pass0 else false
  let res2 := { res1 with headersResult := hr.2 }
  if tc.httpResp.statusCode = resp.statusCode then
    (pass1, some { res2 with statusCode := { res2.statusCode with normal := true } },
      some tc, none)
  else
    (false, some res2, some tc, none)

/-- `Regression.test` from run.go (the lower-case comparison helper):
load the case, classify the body, split the noise mask, compare body
(via `pkg.Match` for JSON bodies, string equality otherwise), headers
and status code. -/
def regTest (oracle : MatchOracle) (store : List TestCase) (cid id : String)
    (resp : HttpResp) : Bool × Option RunResult × Option TestCase × Option String :=
  match storeGet store cid id with
  | none => (false, none, none, some "testcase not found")
  | some tc =>
      let bodyType := if resp.body.parsed.isSome then BodyType.json else BodyType.plain
      let res0 : RunResult :=
        { statusCode := { normal := false, expected := tc.httpResp.statusCode,
                          actual := resp.statusCode },
          bodyResult := { normal := false, type := bodyType,
                          expected := tc.httpResp.body.text, actual := resp.body.text },
          headersResult := [] }
      let bNoise := bodyNoiseOf tc.noise
      let hNoise := headerNoiseOf tc.noise
      if !tc.noise.contains "body" && bodyType == BodyType.json then
        match oracle.matchBody tc.httpResp.body.text resp.body.text bNoise with
        | .error e => (false, some res0, some tc, some e)
        | .ok pass0 => regTestFinish oracle tc resp res0 hNoise pass0
      else
        let pass0 := !(!tc.noise.contains "body" && tc.httpResp.body.text != resp.body.text)
        regTestFinish oracle tc resp res0 hNoise pass0

/-- `Regression.Test` from run.go.  `none` models the Go panic: when the
load failed, `tc` is nil, the local `t` stays nil and `t.Completed = …`
dereferences a nil pointer before anything is persisted.  Otherwise the
deferred `saveResult` persists the record (its own store errors are only
logged) and the function returns the verdict with a nil error in every
path. -/
def RegressionTest (oracle : MatchOracle) (store : List TestCase) (rs : RunStore)
    (cid app runID id newID : String) (resp : HttpResp) (startedTs completedTs : Int) :
    Option (Bool × Option String × RunStore) :=
  match regTest oracle store cid id resp with
  | (ok, res?, tc?, _) =>
      match tc?, res? with
      | some tc, some res =>
          let rec0 : RunTest :=
            { id := newID, started := startedTs, runID := runID, testCaseID := id,
              uri := tc.uri, req := tc.httpReq, resp := resp, result := res,
              noise := tc.noise, completed := completedTs,
              status := if ok then .passed else .failed }
          some (ok, none, saveResult rs rec0)
      | _, _ => none

/-- C3 as stated, at one call: `Test` returns, the returned error is
non-nil exactly when the load from the store failed (the only fallible
store read in the model), and in that error case a Failed record is
persisted. -/
def c3ClaimAt (oracle : MatchOracle) (store : List TestCase) (rs : RunStore)
    (cid app runID id newID : String) (resp : HttpResp) (s c : Int) : Prop :=
  ∃ ok err rs',
    RegressionTest oracle store rs cid app runID id newID resp s c = some (ok, err, rs') ∧
    ((err ≠ none) ↔ storeGet store cid id = none) ∧
    (err ≠ none → ∃ t, t ∈ rs'.rtests ∧ t.status = .failed)

/-! ### Instantiated claim statements and concrete inputs -/

/-- C6 as stated, at one deletion followed by one access: the delete
succeeds, the anchors entry for the case's index is evicted, and the
next `fillCache` touch of that index rebuilds the anchors list from the
store's `GetKeys` result. -/
def c6ClaimAt (st : CacheState) (store : List TestCase) (cid id : String)
    (next : TestCase) : Prop :=
  ∃ st1 store1, DeleteTC st store cid id = .ok (st1, store1) ∧
    st1.anchors (indexOf next) = none ∧
    (fillCache st1 store1 next).1.anchors (indexOf next) =
      some ((getKeys store1 next.cid next.appID next.uri).map (fun v => v.anchors))

/-- A Running run created at epoch second 0 with no child tests. -/
def c2Run : TestRun := { id := "r1", cid := "c", status := .running, created := 0 }

/-- A `ReadTests` view with no tests for any run. -/
def noTests : String → List RTest := fun _ => []

/-- An oracle whose `Match` always passes and whose `CompareHeaders`
reports success; used only to instantiate theorems at concrete inputs. -/
def oracleTrue : MatchOracle :=
  { matchBody := fun _ _ _ => .ok true, compareHeaders := fun _ _ _ => (true, []) }

def cexT1 : TestCase :=
  { id := "t1", cid := "c", appID := "a", uri := "u", httpReq := emptyReq,
    httpResp := emptyResp, allKeys := [("url_params.x", ["1"])],
    anchors := [("url_params.x", ["1"])], noise := [] }

def cexT2 : TestCase :=
  { id := "t2", cid := "c", appID := "a", uri := "u", httpReq := emptyReq,
    httpResp := emptyResp, allKeys := [("url_params.x", ["2"])],
    anchors := [("url_params.x", ["2"])], noise := [] }

def cexStore : List TestCase := [cexT1, cexT2]

/-- The cache after a first access has filled the index of `cexT1` and
`cexT2` from the store. -/
def cexFilled : CacheState := (fillCache cacheEmpty cexStore cexT1).1

/-- Expected response body of the denoise example (raw text, not valid
JSON, so `addBody` stores it verbatim at key `body`). -/
def bodyExp : BodyStr := rawBody "expected-body"

/-- Observed response body of the denoise example. -/
def bodyObs : BodyStr := rawBody "observed-body"

/-- The stored test case of the denoise example. -/
def tcDen : TestCase :=
  { id := "d1", cid := "c", appID := "a", uri := "u", httpReq := emptyReq,
    httpResp := { statusCode := 200, header := [], body := bodyExp },
    allKeys := [], anchors := [], noise := [] }

/-- A fresh test case carrying one URL parameter, used to drive
`isDup`/`putTC` at a concrete input. -/
def tcPut : TestCase :=
  { id := "p1", cid := "", appID := "a", uri := "u",
    httpReq := { emptyReq with urlParams := [("x", "v")] },
    httpResp := emptyResp, allKeys := [], anchors := [], noise := [] }

/-- A deduplicating configuration whose store writes always succeed. -/
def cfgDedup : RegCfg := { enableDeDup := true, upsertOk := fun _ => true }

/-- A non-deduplicating configuration that fails exactly the write of
the case with id `bad`. -/
def cfgFailBad : RegCfg :=
  { enableDeDup := false, upsertOk := fun t => !(t.id == "bad") }

/-- The failing case for the `Put` atomicity example. -/
def tcBad : TestCase :=
  { id := "bad", cid := "", appID := "a", uri := "u", httpReq := emptyReq,
    httpResp := emptyResp, allKeys := [], anchors := [], noise := [] }

/-- A case whose write succeeds, for the `Put` atomicity example. -/
def tcGood : TestCase :=
  { id := "good", cid := "", appID := "a", uri := "u", httpReq := emptyReq,
    httpResp := emptyResp, allKeys := [], anchors := [], noise := [] }

/-! ## Theorems

First the library of facts about the association-list map model, then
one theorem per claim (with witnesses and counterexamples). -/

theorem mem_keys_setA {β : Type} (m : List (String × β)) (k a : String) (v : β) :
    a ∈ (setA m k v).map Prod.fst ↔ a ∈ m.map Prod.fst ∨ a = k := by
  induction m with
  | nil => simp [setA]
  | cons p rest ih =>
      by_cases h : p.1 = k
      · subst h
        simp [setA]
        tauto
      · simp [setA, h, ih]
        tauto

theorem nodupKeys_setA {β : Type} (m : List (String × β)) (k : String) (v : β)
    (hm : nodupKeys m) : nodupKeys (setA m k v) := by
  induction m with
  | nil => simp [nodupKeys, setA]
  | cons p rest ih =>
      unfold nodupKeys at hm ⊢
      simp only [List.map_cons, List.nodup_cons] at hm
      by_cases h : p.1 = k
      · subst h
        simpa [setA, List.nodup_cons] using hm
      · have hrest := ih hm.2
        have hset : setA (p :: rest) k v = p :: setA rest k v := by
          simp [setA, h]
        rw [hset]
        simp only [List.map_cons, List.nodup_cons]
        refine ⟨?_, hrest⟩
        intro hc
        rcases (mem_keys_setA rest k p.1 v).mp hc with h1 | h2
        · exact hm.1 h1
        · exact h h2

theorem lookupA_eq_some_of_mem {β : Type} (m : List (String × β)) (k : String) (v : β)
    (hm : nodupKeys m) (hmem : (k, v) ∈ m) : lookupA m k = some v := by
  induction m with
  | nil => cases hmem
  | cons p rest ih =>
      unfold nodupKeys at hm
      simp only [List.map_cons, List.nodup_cons] at hm
      rcases List.mem_cons.mp hmem with h | h
      · subst h
        simp [lookupA]
      · have hne : p.1 ≠ k := by
          intro he
          apply hm.1
          have : k ∈ rest.map Prod.fst := List.mem_map_of_mem Prod.fst h
          simpa [he] using this
        simp [lookupA, hne, ih hm.2 h]

theorem mem_of_lookupA_eq_some {β : Type} (m : List (String × β)) (k : String) (v : β)
    (h : lookupA m k = some v) : (k, v) ∈ m := by
  induction m with
  | nil => simp [lookupA] at h
  | cons p rest ih =>
      by_cases hpk : p.1 = k
      · simp only [lookupA, if_pos hpk] at h
        cases h
        obtain ⟨a, b⟩ := p
        cases hpk
        exact List.mem_cons_self _ _
      · simp only [lookupA, if_neg hpk] at h
        exact List.mem_cons_of_mem _ (ih h)

theorem nodupKeys_foldl {β γ : Type} (step : List (String × β) → γ → List (String × β))
    (hstep : ∀ m x, nodupKeys m → nodupKeys (step m x)) :
    ∀ (l : List γ) (m : List (String × β)), nodupKeys m → nodupKeys (l.foldl step m) := by
  intro l
  induction l with
  | nil => intro m hm; exact hm
  | cons x rest ih => intro m hm; exact ih (step m x) (hstep m x hm)

theorem nodupKeys_nil {β : Type} : nodupKeys ([] : List (String × β)) := by
  simp [nodupKeys]

theorem nodupKeys_respFlat (header : List (String × List String)) (body : BodyStr) :
    nodupKeys (respFlat header body) := by
  have hbase : nodupKeys (header.foldl
      (fun m p => setA m ("header." ++ p.1) [String.join p.2]) []) :=
    nodupKeys_foldl _ (fun m x hm => nodupKeys_setA m _ _ hm) header [] nodupKeys_nil
  unfold respFlat addBody
  cases body.parsed with
  | none => exact nodupKeys_setA _ _ _ hbase
  | some j => exact nodupKeys_foldl _ (fun m x hm => nodupKeys_setA m _ _ hm) _ _ hbase

theorem mem_noiseOf (a b : FlatMap) (ha : nodupKeys a) (k : String) :
    k ∈ noiseOf a b ↔
      ∃ v, lookupA a k = some v ∧
        (lookupA b k = none ∨ ∃ v2, lookupA b k = some v2 ∧ v ≠ v2) := by
  unfold noiseOf
  rw [List.mem_map]
  constructor
  · rintro ⟨p, hp, hk⟩
    rw [List.mem_filter] at hp
    subst hk
    refine ⟨p.2, lookupA_eq_some_of_mem a p.1 p.2 ha ?_, ?_⟩
    · exact (Prod.mk.eta ▸ hp.1)
    · cases hb : lookupA b p.1 with
      | none => exact Or.inl rfl
      | some v2 =>
          right
          refine ⟨v2, rfl, ?_⟩
          have := hp.2
          rw [hb] at this
          simpa using this
  · rintro ⟨v, hv, hcase⟩
    refine ⟨(k, v), ?_, rfl⟩
    rw [List.mem_filter]
    refine ⟨mem_of_lookupA_eq_some a k v hv, ?_⟩
    rcases hcase with hb | ⟨v2, hb, hne⟩
    · simp only [hb]
    · simp only [hb]
      simpa using hne

/-- C1: for every value histogram, a total below 20 classifies the field
as an anchor; from 20 on, the field is an anchor exactly when 40% of the
total exceeds the number of distinct values (equivalently, `isAnchor` is
false exactly when the distinct-value count reaches 40% of the total). -/
theorem isAnchor_classification (m : Hist) :
    (histTotal m < 20 → isAnchor m = true) ∧
    (20 ≤ histTotal m → (isAnchor m = true ↔ 5 * m.length < 2 * histTotal m)) ∧
    (20 ≤ histTotal m → (isAnchor m = false ↔ 2 * histTotal m ≤ 5 * m.length)) := by
  unfold isAnchor
  refine ⟨fun h => by simp [h], fun h => ?_, fun h => ?_⟩ <;>
    [skip; skip] <;>
    · have h1 : ¬ histTotal m < 20 := by omega
      by_cases h2 : 5 * m.length < 2 * histTotal m <;> simp [h1, h2] <;> omega

/-- Witness for `isAnchor_classification`: a histogram of 25 values of
one single string is an anchor; one with 25 distinct values is not. -/
theorem isAnchor_classification_witness :
    isAnchor [("A+", 25)] = true ∧
    isAnchor ((List.range 25).map (fun i => (toString i, 1))) = false := by
  constructor
  · exact ((isAnchor_classification [("A+", 25)]).2.1 (by decide)).mpr (by decide)
  · exact ((isAnchor_classification
      ((List.range 25).map (fun i => (toString i, 1)))).2.2 (by decide)).mpr (by decide)

/-- C8: `flatten` maps every scalar to the single-entry map from the
empty path to the one-element list holding its canonical string —
`true`/`false` for booleans, the canonical `FormatFloat('E', -1, 64)`
string for numbers, the string itself verbatim — and JSON null (Go
`nil`) yields the empty string at the empty path. -/
theorem flatten_scalar_spec :
    (∀ b : Bool, flatten (.bool b) = [("", [if b then "true" else "false"])]) ∧
    (∀ canon : String, flatten (.num canon) = [("", [canon])]) ∧
    (∀ s : String, flatten (.str s) = [("", [s])]) ∧
    flatten .null = [("", [""])] := by
  refine ⟨fun b => ?_, fun canon => by simp [flatten], fun s => by simp [flatten],
    by simp [flatten]⟩
  cases b <;> simp [flatten]

theorem le_newestStarted_init (ts0 : Int) (l : List RTest) : ts0 ≤ newestStarted ts0 l := by
  induction l generalizing ts0 with
  | nil => simp [newestStarted]
  | cons t rest ih =>
      have hstep : newestStarted ts0 (t :: rest) =
          newestStarted (if ts0 < t.started then t.started else ts0) rest := by
        simp [newestStarted]
      rw [hstep]
      have h1 : ts0 ≤ if ts0 < t.started then t.started else ts0 := by
        split <;> omega
      exact le_trans h1 (ih _)

theorem mem_le_newestStarted (l : List RTest) (x : RTest) :
    ∀ ts0 : Int, x ∈ l → x.started ≤ newestStarted ts0 l := by
  induction l with
  | nil => intro ts0 hx; cases hx
  | cons t rest ih =>
      intro ts0 hx
      have hstep : newestStarted ts0 (t :: rest) =
          newestStarted (if ts0 < t.started then t.started else ts0) rest := by
        simp [newestStarted]
      rw [hstep]
      rcases List.mem_cons.mp hx with h | h
      · subst h
        have h1 : x.started ≤ if ts0 < x.started then x.started else ts0 := by
          split <;> omega
        exact le_trans h1 (le_newestStarted_init _ rest)
      · exact ih _ h

theorem newestStarted_mem (ts0 : Int) (l : List RTest) :
    newestStarted ts0 l = ts0 ∨ newestStarted ts0 l ∈ l.map (fun t => t.started) := by
  induction l generalizing ts0 with
  | nil => left; rfl
  | cons t rest ih =>
      have hstep : newestStarted ts0 (t :: rest) =
          newestStarted (if ts0 < t.started then t.started else ts0) rest := by
        simp [newestStarted]
      rw [hstep]
      rcases ih (if ts0 < t.started then t.started else ts0) with h | h
      · rw [h]
        split
        · right; simp
        · left; rfl
      · right
        simp only [List.map_cons, List.mem_cons]
        exact Or.inr (by simpa using h)

/-- C2 counterexample: a Running run with an empty child-test set whose
`Created` is current (now = its creation instant) is left Running by
`updateStatus`, while the claim requires it to be failed merely for
having no child tests. -/
theorem updateStatus_claim_cex : ¬ c2ClaimAt 0 noTests c2Run := by
  intro h
  have h2 := (h rfl).1 (Or.inl rfl)
  have h3 : updateStatusRun 0 noTests c2Run = (c2Run, []) := by
    simp [updateStatusRun, noTests, c2Run, failOldTestRuns]
  rw [h3] at h2
  have h4 := congrArg (fun p => p.1.status) h2
  simp [c2Run] at h4

/-- C2 amended: `updateStatus` maps the batch through the per-run pass;
a Running run is failed and upserted exactly when its stall reference —
its own `Created` when its child-test set is empty, otherwise the
*newest* child's `Started` — is at least 5 minutes old, and is left
unchanged otherwise.  The stall reference with children present really
is the newest `Started`: it bounds all of them and is one of them. -/
theorem updateStatus_stall (nowNs : Int) (readTests : String → List RTest)
    (trs : List TestRun) :
    (updateStatus nowNs readTests trs).1 =
      trs.map (fun tr => (updateStatusRun nowNs readTests tr).1) ∧
    ∀ tr, tr.status = .running →
      (stale nowNs (stallRef readTests tr) →
        updateStatusRun nowNs readTests tr =
          ({ tr with status := .failed }, [{ tr with status := .failed }])) ∧
      (¬ stale nowNs (stallRef readTests tr) →
        updateStatusRun nowNs readTests tr = (tr, [])) ∧
      (∀ x ∈ readTests tr.id, x.started ≤ stallRef readTests tr) ∧
      (readTests tr.id ≠ [] →
        stallRef readTests tr ∈ (readTests tr.id).map (fun t => t.started)) := by
  refine ⟨rfl, fun tr hrun => ?_⟩
  have hnotne : ¬ tr.status ≠ TestRunStatus.running := by simp [hrun]
  cases hts : readTests tr.id with
  | nil =>
      have href : stallRef readTests tr = tr.created := by simp [stallRef, hts]
      refine ⟨fun hs => ?_, fun hs => ?_, by simp [hts], by simp [hts]⟩
      · rw [href] at hs
        unfold stale at hs
        simp [updateStatusRun, hnotne, hts, failOldTestRuns]
        omega
      · rw [href] at hs
        unfold stale at hs
        simp [updateStatusRun, hnotne, hts, failOldTestRuns]
        omega
  | cons t0 rest =>
      have href : stallRef readTests tr = newestStarted t0.started (t0 :: rest) := by
        simp [stallRef, hts]
      refine ⟨fun hs => ?_, fun hs => ?_, ?_, ?_⟩
      · rw [href] at hs
        unfold stale at hs
        simp [updateStatusRun, hnotne, hts, failOldTestRuns]
        omega
      · rw [href] at hs
        unfold stale at hs
        simp [updateStatusRun, hnotne, hts, failOldTestRuns]
        omega
      · intro x hx
        rw [href]
        exact mem_le_newestStarted (t0 :: rest) x t0.started hx
      · intro _
        rw [href]
        rcases newestStarted_mem t0.started (t0 :: rest) with h | h
        · rw [h]
          exact List.mem_map_of_mem _ (List.mem_cons_self _ _)
        · exact h

/-- Witness for `updateStatus_stall`: the same empty run examined 400
seconds after creation is failed and upserted. -/
theorem updateStatus_stall_witness :
    updateStatusRun 400000000000 noTests c2Run =
      ({ c2Run with status := .failed }, [{ c2Run with status := .failed }]) :=
  ((updateStatus_stall 400000000000 noTests [c2Run]).2 c2Run rfl).1
    (by unfold stale; decide)

theorem regTestFinish_shape (oracle : MatchOracle) (tc : TestCase) (resp : HttpResp)
    (res0 : RunResult) (hNoise : List String) (pass0 : Bool) :
    ∃ pass res,
      regTestFinish oracle tc resp res0 hNoise pass0 = (pass, some res, some tc, none) := by
  unfold regTestFinish
  split
  · exact ⟨_, _, rfl⟩
  · exact ⟨_, _, rfl⟩

theorem regTest_shape (oracle : MatchOracle) (store : List TestCase) (cid id : String)
    (resp : HttpResp) (tc : TestCase) (hsome : storeGet store cid id = some tc) :
    ∃ pass res e?, regTest oracle store cid id resp = (pass, some res, some tc, e?) := by
  unfold regTest
  rw [hsome]
  dsimp only
  repeat' split
  all_goals
    first
      | exact ⟨_, _, _, rfl⟩
      | · obtain ⟨pass, res, hshape⟩ := regTestFinish_shape oracle tc resp _ _ _
          exact ⟨pass, res, none, hshape⟩

/-- C3 counterexample: when the test-case load fails (unknown id), the
Go function dereferences the nil `t` at `t.Completed` — modelled as
`none` — so it neither returns the error nor persists a Failed record,
contradicting the claimed error contract. -/
theorem regressionTest_claim_cex :
    ¬ c3ClaimAt oracleTrue [] runStoreEmpty "c" "app" "r1" "missing" "n1" emptyResp 0 0 := by
  rintro ⟨ok, err, rs', heq, _, _⟩
  have hnone : RegressionTest oracleTrue [] runStoreEmpty "c" "app" "r1" "missing" "n1"
      emptyResp 0 0 = none := rfl
  rw [hnone] at heq
  cases heq

/-- C3 amended: `Test` panics (nil dereference, nothing persisted) when
the load fails; in every other case — full pass, legitimate comparison
failure, and `pkg.Match` errors alike — it returns a nil error together
with the verdict, after persisting via `saveResult` a record whose
status is Passed exactly for a full pass.  No path returns a non-nil
error; store failures inside the deferred `saveResult` are only
logged. -/
theorem regressionTest_contract (oracle : MatchOracle) (store : List TestCase)
    (rs : RunStore) (cid app runID id newID : String) (resp : HttpResp) (s c : Int) :
    (storeGet store cid id = none →
      RegressionTest oracle store rs cid app runID id newID resp s c = none) ∧
    (∀ tc, storeGet store cid id = some tc →
      ∃ pass rec,
        RegressionTest oracle store rs cid app runID id newID resp s c =
          some (pass, none, saveResult rs rec) ∧
        rec.status = (if pass then RunTestStatus.passed else RunTestStatus.failed) ∧
        rec.runID = runID ∧ rec.testCaseID = id ∧ rec.id = newID) := by
  constructor
  · intro hnone
    unfold RegressionTest regTest
    rw [hnone]
  · intro tc hsome
    obtain ⟨pass, res, e?, hshape⟩ := regTest_shape oracle store cid id resp tc hsome
    refine ⟨pass,
      { id := newID, started := s, runID := runID, testCaseID := id, uri := tc.uri,
        req := tc.httpReq, resp := resp, result := res, noise := tc.noise,
        completed := c,
        status := if pass then RunTestStatus.passed else RunTestStatus.failed },
      ?_, rfl, rfl, rfl, rfl⟩
    unfold RegressionTest
    rw [hshape]

/-- Witness for `regressionTest_contract`: a concrete successful load
returns a verdict with a nil error and persists the matching record. -/
theorem regressionTest_contract_witness :
    ∃ pass rec,
      RegressionTest oracleTrue [tcDen] runStoreEmpty "c" "app" "r1" "d1" "n1"
        emptyResp 0 0 = some (pass, none, saveResult runStoreEmpty rec) ∧
      rec.status = (if pass then RunTestStatus.passed else RunTestStatus.failed) ∧
      rec.runID = "r1" ∧ rec.testCaseID = "d1" ∧ rec.id = "n1" :=
  (regressionTest_contract oracleTrue [tcDen] runStoreEmpty "c" "app" "r1" "d1" "n1"
    emptyResp 0 0).2 tcDen rfl

/-- C4: `DeNoise` loads the case, builds the two flat response views `a`
(stored) and `b` (observed) the same way — headers joined under
`header.<k>`, body via `addBody` — overwrites `tc.Noise` with exactly
the paths of `a` that are absent from `b` or carry a different value
list there, and upserts the case.  Paths present only in `b` are never
included. -/
theorem deNoise_spec (store : List TestCase) (cid id : String) (obody : BodyStr)
    (h : List (String × List String)) (tc : TestCase)
    (hget : storeGet store cid id = some tc) :
    DeNoise store cid id obody h =
      .ok (storeUpsert store { tc with
        noise := noiseOf (respFlat tc.httpResp.header tc.httpResp.body)
          (respFlat h obody) }) ∧
    (∀ k, k ∈ noiseOf (respFlat tc.httpResp.header tc.httpResp.body) (respFlat h obody) ↔
      ∃ v, lookupA (respFlat tc.httpResp.header tc.httpResp.body) k = some v ∧
        (lookupA (respFlat h obody) k = none ∨
          ∃ v2, lookupA (respFlat h obody) k = some v2 ∧ v ≠ v2)) ∧
    (∀ k, k ∈ noiseOf (respFlat tc.httpResp.header tc.httpResp.body) (respFlat h obody) →
      lookupA (respFlat tc.httpResp.header tc.httpResp.body) k ≠ none) := by
  refine ⟨?_, ?_, ?_⟩
  · unfold DeNoise
    rw [hget]
  · intro k
    exact mem_noiseOf _ _ (nodupKeys_respFlat _ _) k
  · intro k hk
    obtain ⟨v, hv, _⟩ := (mem_noiseOf _ _ (nodupKeys_respFlat _ _) k).mp hk
    simp [hv]

/-- Witness for `deNoise_spec`: a raw-body case whose observed body
differs yields `body` in the noise list and the upsert goes through. -/
theorem deNoise_spec_witness :
    DeNoise [tcDen] "c" "d1" bodyObs [] =
      .ok (storeUpsert [tcDen] { tcDen with
        noise := noiseOf (respFlat tcDen.httpResp.header tcDen.httpResp.body)
          (respFlat [] bodyObs) }) ∧
    "body" ∈ noiseOf (respFlat tcDen.httpResp.header tcDen.httpResp.body)
      (respFlat [] bodyObs) :=
  ⟨(deNoise_spec [tcDen] "c" "d1" bodyObs [] tcDen rfl).1,
    ((deNoise_spec [tcDen] "c" "d1" bodyObs [] tcDen rfl).2.1 "body").mpr
      ⟨["expected-body"], by decide,
        Or.inr ⟨["observed-body"], by decide, by decide⟩⟩⟩

theorem dupLoop_sublist (index : String) (l : List (String × List String)) :
    ∀ st, (dupLoop index st l).2.Sublist l := by
  induction l with
  | nil => intro st; simp [dupLoop]
  | cons p rest ih =>
      intro st
      obtain ⟨k, v⟩ := p
      unfold dupLoop
      split
      · exact (ih _).cons _
      · dsimp only
        split
        · exact (ih _).cons _
        · exact (ih _).cons₂ _

theorem lookupA_aliasSort (m : FlatMap) (fk : FlatMap) (k : String) (v : List String)
    (hm : nodupKeys m) (hmem : (k, v) ∈ m)
    (hany : fk.any (fun r => r.1 == k) = true) :
    lookupA (aliasSort m fk) k = some (sortStrings v) := by
  induction m with
  | nil => cases hmem
  | cons p rest ih =>
      unfold nodupKeys at hm
      simp only [List.map_cons, List.nodup_cons] at hm
      rcases List.mem_cons.mp hmem with h | h
      · rw [← h]
        simp [aliasSort, lookupA, hany]
      · have hkrest : k ∈ rest.map Prod.fst := List.mem_map_of_mem Prod.fst h
        have hne : p.1 ≠ k := fun he => hm.1 (he ▸ hkrest)
        have ihr := ih hm.2 h
        simp only [aliasSort, List.map_cons] at ihr ⊢
        by_cases hb : fk.any (fun r => r.1 == p.1)
        · simpa [lookupA, hb, hne] using ihr
        · simpa [lookupA, hb, hne] using ihr

theorem nodupKeys_reqKeysOf (t : TestCase) : nodupKeys (reqKeysOf t) := by
  unfold reqKeysOf
  have h1 : nodupKeys (t.httpReq.header.foldl
      (fun m p => setA m ("header." ++ p.1) [String.join p.2]) []) :=
    nodupKeys_foldl _ (fun m x hm => nodupKeys_setA m _ _ hm) _ _ nodupKeys_nil
  have h2 : nodupKeys (t.httpReq.urlParams.foldl
      (fun m p => setA m ("url_params." ++ p.1) [p.2])
      (t.httpReq.header.foldl
        (fun m p => setA m ("header." ++ p.1) [String.join p.2]) [])) :=
    nodupKeys_foldl _ (fun m x hm => nodupKeys_setA m _ _ hm) _ _ h1
  cases hp : t.httpReq.body.parsed with
  | none => simpa [hp] using h2
  | some j =>
      simp only [hp]
      exact nodupKeys_foldl _ (fun m x hm => nodupKeys_setA m _ _ hm) _ _ h2

theorem sorted_sortStrings (l : List String) : List.Sorted (· ≤ ·) (sortStrings l) :=
  List.sorted_insertionSort _ l

theorem isDup_shape (st : CacheState) (store : List TestCase) (t : TestCase)
    (r : CacheState × String) (hr : fillCache st store t = r)
    (d : CacheState × FlatMap) (hd : dupLoop r.2 r.1 (reqKeysOf t) = d) :
    (d.2 = [] ∧ isDup st store t = (true, t, d.1, store)) ∨
    (d.2 ≠ [] ∧
      isDup st store t =
        (existsCombo ((d.1.anchors r.2).getD []) (sortFlat d.2),
         { t with allKeys := aliasSort (reqKeysOf t) d.2, anchors := sortFlat d.2 },
         { d.1 with anchors := fun i =>
             if i = r.2 then some (((d.1.anchors r.2).getD []) ++ [sortFlat d.2])
             else d.1.anchors i },
         deleteByAnchor store t.cid t.appID t.uri d.2)) := by
  unfold isDup
  rw [hr]
  dsimp only
  rw [hd]
  by_cases hfk : d.2 = []
  · left
    refine ⟨hfk, ?_⟩
    simp [hfk]
  · right
    refine ⟨hfk, ?_⟩
    simp [hfk]

theorem putTC_dedup_eq (cfg : RegCfg) (st : CacheState) (store : List TestCase)
    (cid : String) (t0 : TestCase) (hd : cfg.enableDeDup = true) :
    putTC cfg st store cid t0 =
      (match isDup st store { t0 with cid := cid } with
       | (true, _, st1, store1) => ("", none, st1, store1)
       | (false, t1, st1, store1) =>
           if cfg.upsertOk t1 then (t1.id, none, st1, storeUpsert store1 t1)
           else ("", some "internal failure", st1, store1)) := by
  unfold putTC
  rw [hd]
  rfl

/-- C5: a case that `putTC` persists under deduplication (duplicate
verdict false, successful upsert) is upserted exactly as `isDup` left
it, and every entry of its `Anchors` map is present in its `AllKeys`
map with the same value list — anchors ⊆ all_keys (`putTC` is the
per-case processor `Put` runs). -/
theorem putTC_anchors_sub_allKeys (cfg : RegCfg) (st : CacheState)
    (store : List TestCase) (cid : String) (t0 : TestCase)
    (hd : cfg.enableDeDup = true)
    (hdup : (isDup st store { t0 with cid := cid }).1 = false)
    (hup : cfg.upsertOk (isDup st store { t0 with cid := cid }).2.1 = true) :
    putTC cfg st store cid t0 =
      ((isDup st store { t0 with cid := cid }).2.1.id, none,
       (isDup st store { t0 with cid := cid }).2.2.1,
       storeUpsert (isDup st store { t0 with cid := cid }).2.2.2
         (isDup st store { t0 with cid := cid }).2.1) ∧
    ∀ p ∈ (isDup st store { t0 with cid := cid }).2.1.anchors,
      lookupA (isDup st store { t0 with cid := cid }).2.1.allKeys p.1 = some p.2 := by
  constructor
  · rw [putTC_dedup_eq cfg st store cid t0 hd]
    rcases hq : isDup st store { t0 with cid := cid } with ⟨dup, t1, st1, store1⟩
    rw [hq] at hdup hup
    dsimp only at hdup hup
    subst hdup
    simp [hup]
  · rcases isDup_shape st store { t0 with cid := cid } _ rfl _ rfl with ⟨_, heq⟩ | ⟨_, heq⟩
    · rw [heq] at hdup
      simp at hdup
    · rw [heq]
      dsimp only
      intro p hp
      obtain ⟨q, hqmem, hq⟩ := List.mem_map.mp hp
      obtain ⟨qk, qv⟩ := q
      subst hq
      have hsub := dupLoop_sublist (fillCache st store { t0 with cid := cid }).2
        (reqKeysOf { t0 with cid := cid }) (fillCache st store { t0 with cid := cid }).1
      have hmem : (qk, qv) ∈ reqKeysOf { t0 with cid := cid } := hsub.subset hqmem
      have hany : (dupLoop (fillCache st store { t0 with cid := cid }).2
          (fillCache st store { t0 with cid := cid }).1
          (reqKeysOf { t0 with cid := cid })).2.any (fun r => r.1 == qk) = true :=
        List.any_eq_true.mpr ⟨(qk, qv), hqmem, by simp⟩
      exact lookupA_aliasSort _ _ qk qv (nodupKeys_reqKeysOf _) hmem hany

/-- Witness for `putTC_anchors_sub_allKeys`: persisting a fresh case
with one URL parameter through the deduplicating `putTC`. -/
theorem putTC_anchors_sub_allKeys_witness :
    putTC cfgDedup cacheEmpty [] "c" tcPut =
      ((isDup cacheEmpty [] { tcPut with cid := "c" }).2.1.id, none,
       (isDup cacheEmpty [] { tcPut with cid := "c" }).2.2.1,
       storeUpsert (isDup cacheEmpty [] { tcPut with cid := "c" }).2.2.2
         (isDup cacheEmpty [] { tcPut with cid := "c" }).2.1) ∧
    ∀ p ∈ (isDup cacheEmpty [] { tcPut with cid := "c" }).2.1.anchors,
      lookupA (isDup cacheEmpty [] { tcPut with cid := "c" }).2.1.allKeys p.1 = some p.2 :=
  putTC_anchors_sub_allKeys cfgDedup cacheEmpty [] "c" tcPut rfl (by decide) rfl

/-- C9: when `isDup` proceeds past the empty-`filterKeys` check, the
candidate combination's value lists are sorted ascending before the
structural-equality comparison (the verdict is `existsCombo` of the
sorted map), and both the combination appended to `anchors[index]` and
the persisted `tc.Anchors` are exactly that sorted map, every value
list of which is `Sorted (· ≤ ·)`. -/
theorem isDup_sorted_anchors (st : CacheState) (store : List TestCase) (t : TestCase)
    (hne : (dupLoop (fillCache st store t).2 (fillCache st store t).1
      (reqKeysOf t)).2 ≠ []) :
    (isDup st store t).2.1.anchors =
      sortFlat (dupLoop (fillCache st store t).2 (fillCache st store t).1
        (reqKeysOf t)).2 ∧
    (∀ p ∈ (isDup st store t).2.1.anchors, List.Sorted (· ≤ ·) p.2) ∧
    (isDup st store t).2.2.1.anchors (fillCache st store t).2 =
      some ((((dupLoop (fillCache st store t).2 (fillCache st store t).1
          (reqKeysOf t)).1.anchors (fillCache st store t).2).getD []) ++
        [(isDup st store t).2.1.anchors]) ∧
    (isDup st store t).1 =
      existsCombo (((dupLoop (fillCache st store t).2 (fillCache st store t).1
          (reqKeysOf t)).1.anchors (fillCache st store t).2).getD [])
        ((isDup st store t).2.1.anchors) := by
  rcases isDup_shape st store t _ rfl _ rfl with ⟨hfk, _⟩ | ⟨_, heq⟩
  · exact absurd hfk hne
  · rw [heq]
    dsimp only
    refine ⟨rfl, ?_, ?_, rfl⟩
    · intro p hp
      obtain ⟨q, _, hq⟩ := List.mem_map.mp hp
      subst hq
      exact sorted_sortStrings q.2
    · simp

/-- Witness for `isDup_sorted_anchors`: the fresh one-parameter case on
an empty cache and store. -/
theorem isDup_sorted_anchors_witness :
    (isDup cacheEmpty [] tcPut).2.1.anchors =
      sortFlat (dupLoop (fillCache cacheEmpty [] tcPut).2 (fillCache cacheEmpty [] tcPut).1
        (reqKeysOf tcPut)).2 ∧
    (∀ p ∈ (isDup cacheEmpty [] tcPut).2.1.anchors, List.Sorted (· ≤ ·) p.2) ∧
    (isDup cacheEmpty [] tcPut).2.2.1.anchors (fillCache cacheEmpty [] tcPut).2 =
      some ((((dupLoop (fillCache cacheEmpty [] tcPut).2 (fillCache cacheEmpty [] tcPut).1
          (reqKeysOf tcPut)).1.anchors (fillCache cacheEmpty [] tcPut).2).getD []) ++
        [(isDup cacheEmpty [] tcPut).2.1.anchors]) ∧
    (isDup cacheEmpty [] tcPut).1 =
      existsCombo (((dupLoop (fillCache cacheEmpty [] tcPut).2
          (fillCache cacheEmpty [] tcPut).1
          (reqKeysOf tcPut)).1.anchors (fillCache cacheEmpty [] tcPut).2).getD [])
        ((isDup cacheEmpty [] tcPut).2.1.anchors) :=
  isDup_sorted_anchors cacheEmpty [] tcPut (by decide)

/-- C6 counterexample: both endpoint cases are cached, then `t1` is
deleted.  `anchors[index]` is evicted but the next access does not
rebuild from the store: `fillCache` still sees `noisyFields[index]` and
`fieldCounts[index]` and returns at once, so the anchors entry stays
`none` instead of the `GetKeys`-derived list (which would hold `t2`'s
combination). -/
theorem deleteTC_refill_cex : ¬ c6ClaimAt cexFilled cexStore "c" "t1" cexT2 := by
  rintro ⟨st1, store1, h1, _, h3⟩
  have h1' : DeleteTC cexFilled cexStore "c" "t1" =
      .ok ({ cexFilled with
        anchors := fun i => if i = indexOf cexT1 then none else cexFilled.anchors i },
        storeDelete cexStore "t1") := rfl
  rw [h1'] at h1
  injection h1 with h1
  injection h1 with ha hb
  subst ha
  subst hb
  have hfast : (fillCache
      { cexFilled with
        anchors := fun i => if i = indexOf cexT1 then none else cexFilled.anchors i }
      (storeDelete cexStore "t1") cexT2).1.anchors (indexOf cexT2) = none := rfl
  rw [hfast] at h3
  cases h3

theorem fillFold_anchors (l : List TestCase) :
    ∀ acc : List FlatMap × FieldCounts × List String,
      (l.foldl fillFold acc).1 = acc.1 ++ l.map (fun v => v.anchors) := by
  induction l with
  | nil => intro acc; simp
  | cons v rest ih =>
      intro acc
      rw [List.foldl_cons, ih]
      simp [fillFold]

/-- C6 corrected (amended): a successful `DeleteTC` evicts only
`anchors[index]` and deletes the case; the next `fillCache` access
rebuilds the index from the store via `GetKeys` only when
`noisyFields[index]` or `fieldCounts[index]` is missing too — when both
survived the delete, `fillCache` returns without touching the store and
the anchors entry stays absent. -/
theorem deleteTC_eviction (st : CacheState) (store : List TestCase) (cid id : String)
    (tdel : TestCase) (hget : storeGet store cid id = some tdel) :
    DeleteTC st store cid id =
      .ok ({ st with anchors := fun i => if i = indexOf tdel then none else st.anchors i },
        storeDelete store id) ∧
    (∀ store1 u,
      (st.noisyFields (indexOf u)).isSome = true →
      (st.fieldCounts (indexOf u)).isSome = true →
        fillCache
          { st with anchors := fun i => if i = indexOf tdel then none else st.anchors i }
          store1 u =
        ({ st with anchors := fun i => if i = indexOf tdel then none else st.anchors i },
          indexOf u)) ∧
    (∀ store1 u,
      ¬ ((st.noisyFields (indexOf u)).isSome = true ∧
          (st.fieldCounts (indexOf u)).isSome = true) →
      (fillCache
          { st with anchors := fun i => if i = indexOf tdel then none else st.anchors i }
          store1 u).1.anchors (indexOf u) =
        some ((getKeys store1 u.cid u.appID u.uri).map (fun v => v.anchors))) := by
  refine ⟨?_, ?_, ?_⟩
  · unfold DeleteTC
    rw [hget]
  · intro store1 u h1 h2
    unfold fillCache
    dsimp only
    rw [h1, h2]
    rfl
  · intro store1 u hn
    have hcond : ((st.noisyFields (indexOf u)).isSome &&
        (st.fieldCounts (indexOf u)).isSome) = false := by
      cases hb1 : (st.noisyFields (indexOf u)).isSome <;>
        cases hb2 : (st.fieldCounts (indexOf u)).isSome <;> simp_all
    unfold fillCache
    dsimp only
    rw [hcond]
    simp [fillFold_anchors]

/-- Witness for `deleteTC_eviction`: deleting the cached case `t1`
succeeds and evicts its anchors entry. -/
theorem deleteTC_eviction_witness :
    DeleteTC cexFilled cexStore "c" "t1" =
      .ok ({ cexFilled with
        anchors := fun i => if i = indexOf cexT1 then none else cexFilled.anchors i },
        storeDelete cexStore "t1") :=
  (deleteTC_eviction cexFilled cexStore "c" "t1" cexT1 rfl).1

/-- C7: one step of `Put`'s loop under deduplication with a healthy
store: a duplicate case contributes the empty string as its id slot and
is not upserted, a novel case is upserted and contributes its id; no
error is produced either way and the loop proceeds to the next case. -/
theorem put_dedup_slot (cfg : RegCfg) (st : CacheState) (store : List TestCase)
    (cid : String) (t : TestCase) (rest : List TestCase) (ids : List String)
    (hd : cfg.enableDeDup = true) (hok : ∀ u, cfg.upsertOk u = true) :
    putLoop cfg cid (t :: rest) ids st store =
      if (isDup st store { t with cid := cid }).1 then
        putLoop cfg cid rest (ids ++ [""]) (isDup st store { t with cid := cid }).2.2.1
          (isDup st store { t with cid := cid }).2.2.2
      else
        putLoop cfg cid rest (ids ++ [(isDup st store { t with cid := cid }).2.1.id])
          (isDup st store { t with cid := cid }).2.2.1
          (storeUpsert (isDup st store { t with cid := cid }).2.2.2
            (isDup st store { t with cid := cid }).2.1) := by
  rcases hq : isDup st store { t with cid := cid } with ⟨dup, t1, st1, store1⟩
  have hstep : putLoop cfg cid (t :: rest) ids st store =
      (match putTC cfg st store cid t with
       | (_, some _, st1', store1') => (ids, some "failed saving testcase", st1', store1')
       | (id, none, st1', store1') => putLoop cfg cid rest (ids ++ [id]) st1' store1') := rfl
  rw [hstep, putTC_dedup_eq cfg st store cid t hd, hq]
  cases dup
  · simp [hok t1]
  · simp

/-- Witness for `put_dedup_slot`: the loop step on the fresh
one-parameter case over the empty cache and store. -/
theorem put_dedup_slot_witness :
    putLoop cfgDedup "c" [tcPut] [] cacheEmpty [] =
      if (isDup cacheEmpty [] { tcPut with cid := "c" }).1 then
        putLoop cfgDedup "c" [] ([] ++ [""])
          (isDup cacheEmpty [] { tcPut with cid := "c" }).2.2.1
          (isDup cacheEmpty [] { tcPut with cid := "c" }).2.2.2
      else
        putLoop cfgDedup "c" [] ([] ++ [(isDup cacheEmpty [] { tcPut with cid := "c" }).2.1.id])
          (isDup cacheEmpty [] { tcPut with cid := "c" }).2.2.1
          (storeUpsert (isDup cacheEmpty [] { tcPut with cid := "c" }).2.2.2
            (isDup cacheEmpty [] { tcPut with cid := "c" }).2.1) :=
  put_dedup_slot cfgDedup cacheEmpty [] "c" tcPut [] [] rfl (fun _ => rfl)

theorem putLoop_fail_aux (cfg : RegCfg) (cid : String) (bad : TestCase)
    (post : List TestCase) (hd : cfg.enableDeDup = false)
    (hbad : cfg.upsertOk { bad with cid := cid } = false) :
    ∀ (pre : List TestCase) (ids : List String) (st : CacheState)
      (store : List TestCase),
      (∀ u ∈ pre, cfg.upsertOk { u with cid := cid } = true) →
      putLoop cfg cid (pre ++ bad :: post) ids st store =
        (ids ++ pre.map (fun u => u.id), some "failed saving testcase", st,
         pre.foldl (fun s u => storeUpsert s { u with cid := cid }) store) := by
  intro pre
  induction pre with
  | nil =>
      intro ids st store _
      rw [List.nil_append]
      have hstep : putLoop cfg cid (bad :: post) ids st store =
          (match putTC cfg st store cid bad with
           | (_, some _, st1', store1') => (ids, some "failed saving testcase", st1', store1')
           | (id, none, st1', store1') => putLoop cfg cid post (ids ++ [id]) st1' store1') :=
        rfl
      rw [hstep]
      have hput : putTC cfg st store cid bad = ("", some "internal failure", st, store) := by
        unfold putTC
        rw [hd]
        dsimp only
        rw [hbad]
        simp
      rw [hput]
      simp
  | cons u pre' ih =>
      intro ids st store hok
      have hu : cfg.upsertOk { u with cid := cid } = true :=
        hok u (List.mem_cons_self _ _)
      rw [List.cons_append]
      have hstep : putLoop cfg cid (u :: (pre' ++ bad :: post)) ids st store =
          (match putTC cfg st store cid u with
           | (_, some _, st1', store1') => (ids, some "failed saving testcase", st1', store1')
           | (id, none, st1', store1') =>
               putLoop cfg cid (pre' ++ bad :: post) (ids ++ [id]) st1' store1') := rfl
      rw [hstep]
      have hput : putTC cfg st store cid u =
          (({ u with cid := cid } : TestCase).id, none, st,
            storeUpsert store { u with cid := cid }) := by
        unfold putTC
        rw [hd]
        dsimp only
        rw [hu]
        simp
      rw [hput]
      dsimp only
      rw [ih _ _ _ (fun x hx => hok x (List.mem_cons_of_mem _ hx))]
      simp

/-- C10: `Put` is not atomic across its batch — when persisting the
case after `pre` fails, `Put` returns the error together with the ids
accumulated for the cases of `pre`, and the upserts already performed
for them remain in the store (no rollback). -/
theorem put_not_atomic (cfg : RegCfg) (st : CacheState) (store : List TestCase)
    (cid : String) (pre post : List TestCase) (bad : TestCase)
    (hd : cfg.enableDeDup = false)
    (hok : ∀ u ∈ pre, cfg.upsertOk { u with cid := cid } = true)
    (hbad : cfg.upsertOk { bad with cid := cid } = false) :
    Put cfg st store cid (pre ++ bad :: post) =
      (pre.map (fun u => u.id), some "failed saving testcase", st,
       pre.foldl (fun s u => storeUpsert s { u with cid := cid }) store) := by
  unfold Put
  have hne : (pre ++ bad :: post).isEmpty = false := by
    cases pre <;> simp
  rw [hne]
  have haux := putLoop_fail_aux cfg cid bad post hd hbad pre [] st store hok
  simpa using haux

/-- Witness for `put_not_atomic`: a two-case batch whose second write
fails keeps the first upsert and returns its single id with the
error. -/
theorem put_not_atomic_witness :
    Put cfgFailBad cacheEmpty [] "c" ([tcGood] ++ tcBad :: []) =
      ([tcGood].map (fun u => u.id), some "failed saving testcase", cacheEmpty,
       [tcGood].foldl (fun s u => storeUpsert s { u with cid := "c" }) []) :=
  put_not_atomic cfgFailBad cacheEmpty [] "c" [tcGood] [] tcBad rfl
    (by intro u hu
        rw [List.mem_singleton] at hu
        subst hu
        rfl)
    rfl

end KeployModel

